import Mathlib

/-!
Shallow embedding of the persistent block store of the `client` repository
(`storage/db.go`), together with models of the external pieces it relies on:
the boltdb durable engine (named buckets holding byte-keyed byte values in
lexicographic key order, with a per-bucket sequence counter), Go's base64 and
decimal text encodings, and the fragment codec.

Go strings and byte slices are both modelled as `List Nat` (byte lists);
machine integers are `Nat` with explicit `% 2 ^ 64` where the source uses
`uint64`.
-/

namespace ClientStorage

/-- Byte sequences: Go `[]byte` and Go `string` values alike. -/
abbrev Bytes := List Nat

/-- Outcome of a store operation: a returned value, an error value returned
to the caller, or a runtime panic (nil-pointer dereference). -/
inductive Res (α : Type) where
  | ok : α → Res α
  | err : String → Res α
  | panics : Res α
deriving DecidableEq

/-- bolt's byte-wise lexicographic key order (`bytes.Compare < 0`). -/
def byteLt : Bytes → Bytes → Bool
  | [], [] => false
  | [], _ :: _ => true
  | _ :: _, [] => false
  | a :: as, b :: bs => if a < b then true else if b < a then false else byteLt as bs

/-- Lookup in an association list of key-value pairs (bolt `Bucket.Get`). -/
def getKV (k : Bytes) : List (Bytes × Bytes) → Option Bytes
  | [] => none
  | (k', v') :: rest => if k = k' then some v' else getKV k rest

/-- Insert or replace, keeping the list sorted by `byteLt`
(bolt `Bucket.Put`: a B+tree keeps keys in lexicographic order). -/
def putKV (k v : Bytes) : List (Bytes × Bytes) → List (Bytes × Bytes)
  | [] => [(k, v)]
  | (k', v') :: rest =>
    if k = k' then (k, v) :: rest
    else if byteLt k k' then (k, v) :: (k', v') :: rest
    else (k', v') :: putKV k v rest

/-- Delete a key if present (bolt `Bucket.Delete`; absent key is a no-op). -/
def delKV (k : Bytes) : List (Bytes × Bytes) → List (Bytes × Bytes)
  | [] => []
  | (k', v') :: rest => if k = k' then delKV k rest else (k', v') :: delKV k rest

/-- One bolt bucket: its ordered key-value data and its sequence counter. -/
structure Bucket where
  data : List (Bytes × Bytes)
  seq : Nat
deriving DecidableEq

/-- The durable engine state: named buckets (bolt database file). -/
abbrev Store := List (Bytes × Bucket)

/-- A freshly opened database file holds no buckets (`New`). -/
def emptyStore : Store := []

/-- bolt `tx.Bucket`: `none` models the nil pointer returned when the named
bucket does not exist. -/
def lookupBucket (name : Bytes) : Store → Option Bucket
  | [] => none
  | (n, bk) :: rest => if name = n then some bk else lookupBucket name rest

/-- Replace the named bucket's state (buckets are mutated in place in Go). -/
def setBucket (name : Bytes) (bk : Bucket) : Store → Store
  | [] => [(name, bk)]
  | (n, bk') :: rest =>
    if name = n then (n, bk) :: rest else (n, bk') :: setBucket name bk rest

/-- bolt `tx.CreateBucketIfNotExists`: creates an empty bucket (sequence 0)
when absent, otherwise leaves the store unchanged. -/
def createBucketIfNotExists (name : Bytes) (s : Store) : Store :=
  match lookupBucket name s with
  | some _ => s
  | none => s ++ [(name, ⟨[], 0⟩)]

/-- bolt `Bucket.NextSequence`: increments the per-bucket `uint64` counter
and returns its new value. -/
def nextSequence (bk : Bucket) : Nat × Bucket :=
  let v := (bk.seq + 1) % 2 ^ 64
  (v, { bk with seq := v })

/-- Big-endian encoding of `n` into `w` bytes, most significant first
(`binary.BigEndian.PutUint64` for `w = 8`). -/
def beBytes : Nat → Nat → Bytes
  | 0, _ => []
  | w + 1, n => (n / 256 ^ w) % 256 :: beBytes w n

/-- Big-endian decoding of a byte sequence (`binary.BigEndian.Uint64`). -/
def beUint (l : Bytes) : Nat :=
  l.foldl (fun a c => a * 256 + c) 0

/-- Decimal digits of `n`, least significant first, as ASCII bytes; the first
argument is structural fuel (call with fuel `≥ n`). -/
def decAux : Nat → Nat → Bytes
  | 0, _ => []
  | _ + 1, 0 => []
  | fuel + 1, n + 1 => ((n + 1) % 10 + 48) :: decAux fuel ((n + 1) / 10)

/-- ASCII decimal rendering of a natural number (`strconv.Itoa` on `n ≥ 0`). -/
def decBytes (n : Nat) : Bytes :=
  if n = 0 then [48] else (decAux n n).reverse

/-- `strconv.Itoa` on a Go `int`. -/
def itoaInt (i : Int) : Bytes :=
  if i < 0 then 45 :: decBytes (-i).toNat else decBytes i.toNat

/-- `strconv.Itoa(int(seq))` where `seq` is a `uint64`: the conversion to the
64-bit signed `int` wraps values `≥ 2 ^ 63` to negatives. -/
def itoaGo (n : Nat) : Bytes :=
  if n < 2 ^ 63 then decBytes n else 45 :: decBytes (2 ^ 64 - n)

/-- Value of an ASCII decimal byte sequence, most significant digit first. -/
def decVal (l : Bytes) : Nat :=
  l.foldl (fun a c => a * 10 + (c - 48)) 0

/-- `strconv.Atoi`-style parse of an ASCII decimal, used by the JSON model
to read back an integer field. -/
def atoiInt (l : Bytes) : Option Int :=
  match l with
  | [] => none
  | 45 :: rest =>
    if rest ≠ [] ∧ rest.all (fun c => 48 ≤ c ∧ c ≤ 57) then some (-(decVal rest : Int)) else none
  | _ =>
    if l.all (fun c => 48 ≤ c ∧ c ≤ 57) then some ((decVal l : Int)) else none

/-- The ASCII code of base64 digit `n` (standard alphabet). -/
def b64char (n : Nat) : Nat :=
  if n < 26 then 65 + n
  else if n < 52 then 97 + (n - 26)
  else if n < 62 then 48 + (n - 52)
  else if n = 62 then 43 else 47

/-- Standard base64 encoding with padding (`base64.StdEncoding.EncodeToString`),
producing ASCII bytes. -/
def b64encode : Bytes → Bytes
  | [] => []
  | [a] => [b64char (a / 4), b64char (a % 4 * 16), 61, 61]
  | [a, b] => [b64char (a / 4), b64char (a % 4 * 16 + b / 16), b64char (b % 16 * 4), 61]
  | a :: b :: c :: rest =>
    b64char (a / 4) :: b64char (a % 4 * 16 + b / 16) ::
      b64char (b % 16 * 4 + c / 64) :: b64char (c % 64) :: b64encode rest

/-- Inverse of the base64 digit table; `none` on a byte outside the alphabet. -/
def b64inv (c : Nat) : Option Nat :=
  if 65 ≤ c ∧ c ≤ 90 then some (c - 65)
  else if 97 ≤ c ∧ c ≤ 122 then some (c - 97 + 26)
  else if 48 ≤ c ∧ c ≤ 57 then some (c - 48 + 52)
  else if c = 43 then some 62
  else if c = 47 then some 63 else none

/-- Standard base64 decoding (`base64.StdEncoding.DecodeString`); `none`
models the error return on malformed input. -/
def b64decode : Bytes → Option Bytes
  | [] => some []
  | [a, b, 61, 61] => do
    let ia ← b64inv a
    let ib ← b64inv b
    pure [ia * 4 + ib / 16]
  | [a, b, c, 61] => do
    let ia ← b64inv a
    let ib ← b64inv b
    let ic ← b64inv c
    pure [ia * 4 + ib / 16, ib % 16 * 4 + ic / 4]
  | a :: b :: c :: d :: rest => do
    let ia ← b64inv a
    let ib ← b64inv b
    let ic ← b64inv c
    let id ← b64inv d
    let tail ← b64decode rest
    pure ((ia * 4 + ib / 16) :: (ib % 16 * 4 + ic / 4) :: (ic % 4 * 64 + id) :: tail)
  | _ => none

/-- Go `copy(dst, src)`: overwrites the first `min` bytes of `dst` with `src`,
returning the resulting `dst` contents.  Copying into a nil (empty) slice
copies nothing. -/
def goCopy (dst src : Bytes) : Bytes :=
  src.take (min dst.length src.length) ++ dst.drop (min dst.length src.length)

/-- Modelled from the spec: the external Fragment Codec's fragment type
(`crypto/block.Block`, not under `src/`): an opaque payload tagged with a
fixed-width message-grouping identifier (`MessageID`). -/
structure Block where
  MessageID : Bytes
  Payload : Bytes
deriving DecidableEq

/-- Modelled from the spec: `client/constants.MessageIDLength`, the width of
the message-grouping identifier. -/
def MessageIDLength : Nat := 16

/-- Modelled from the spec: `core/sphinx/constants.RecipientIDLength`, the
width of the padded recipient identifier. -/
def RecipientIDLength : Nat := 64

/-- Modelled from the spec: `core/sphinx/constants.SURBIDLength`. -/
def SURBIDLength : Nat := 16

/-- `storage/db.go`: `BlockIDLength`, the width of egress block IDs. -/
def BlockIDLength : Nat := 8

/-- Modelled from the spec: the Fragment Codec's json form of a fragment
(`crypto/block.JsonBlock`, not under `src/`). -/
structure JsonBlock where
  MessageID : Bytes
  Payload : Bytes
deriving DecidableEq

/-- Modelled from the spec: `Block.ToJsonBlock`, the fragment-to-transport
half of the external codec. -/
def Block.ToJsonBlock (b : Block) : JsonBlock :=
  ⟨b.MessageID, b.Payload⟩

/-- Modelled from the spec: `JsonBlock.ToBlock`, the transport-to-fragment
half of the external codec (`decode(encode(f)) = f`). -/
def JsonBlock.ToBlock (j : JsonBlock) : Except String Block :=
  Except.ok ⟨j.MessageID, j.Payload⟩

/-- Modelled from the spec: `Block.ToBytes`, the Fragment Codec's
`serialize`: the grouping identifier followed by the opaque payload. -/
def Block.ToBytes (b : Block) : Bytes :=
  b.MessageID ++ b.Payload

/-- Modelled from the spec: `block.FromBytes`, the Fragment Codec's
`deserialize`; fails on input shorter than the identifier width. -/
def Block.FromBytes (raw : Bytes) : Except String Block :=
  if MessageIDLength ≤ raw.length then
    Except.ok ⟨raw.take MessageIDLength, raw.drop MessageIDLength⟩
  else Except.error "block: invalid byte serialization"

/-- `storage/db.go`: `StorageBlock`, one outbound fragment plus delivery
metadata.  Fixed-width Go arrays and Go strings are byte lists. -/
structure StorageBlock where
  BlockID : Bytes
  Sender : Bytes
  SenderProvider : Bytes
  Recipient : Bytes
  RecipientProvider : Bytes
  RecipientID : Bytes
  SendAttempts : Nat
  SURBKeys : Bytes
  SURBID : Bytes
  Block : Block
deriving DecidableEq

/-- `storage/db.go`: `JsonStorageBlock`, the json-serializable form of a
`StorageBlock` (binary fields base64-rendered). -/
structure JsonStorageBlock where
  BlockID : Bytes
  Sender : Bytes
  SenderProvider : Bytes
  Recipient : Bytes
  RecipientProvider : Bytes
  RecipientID : Bytes
  SendAttempts : Int
  SURBKeys : Bytes
  SURBID : Bytes
  JsonBlock : JsonBlock
deriving DecidableEq

/-- `storage/db.go`: `StorageBlock.ToJsonStorageBlock`: base64-encode the
binary fields, pass strings through, widen the attempt counter to `int`. -/
def StorageBlock.ToJsonStorageBlock (s : StorageBlock) : JsonStorageBlock where
  BlockID := b64encode s.BlockID
  Sender := s.Sender
  SenderProvider := s.SenderProvider
  Recipient := s.Recipient
  RecipientProvider := s.RecipientProvider
  RecipientID := b64encode s.RecipientID
  SendAttempts := (s.SendAttempts : Int)
  SURBKeys := b64encode s.SURBKeys
  SURBID := b64encode s.SURBID
  JsonBlock := s.Block.ToJsonBlock

/-- `storage/db.go`: `JsonStorageBlock.ToStorageBlock`: base64-decode the
binary fields and `copy` each into the zero value of the target field.  The
fixed-width arrays are zero-filled arrays of their declared width; the
`SURBKeys` slice's zero value is nil, so `copy(s.SURBKeys[:], surbKeys)`
copies nothing. -/
def JsonStorageBlock.ToStorageBlock (j : JsonStorageBlock) : Except String StorageBlock := do
  let recipientID ← match b64decode j.RecipientID with
    | some v => Except.ok v
    | none => Except.error "illegal base64 data"
  let blockID ← match b64decode j.BlockID with
    | some v => Except.ok v
    | none => Except.error "illegal base64 data"
  let surbID ← match b64decode j.SURBID with
    | some v => Except.ok v
    | none => Except.error "illegal base64 data"
  let surbKeys ← match b64decode j.SURBKeys with
    | some v => Except.ok v
    | none => Except.error "illegal base64 data"
  let b ← j.JsonBlock.ToBlock
  Except.ok
    { BlockID := goCopy (List.replicate BlockIDLength 0) blockID
      Sender := j.Sender
      SenderProvider := j.SenderProvider
      Recipient := j.Recipient
      RecipientProvider := j.RecipientProvider
      RecipientID := goCopy (List.replicate RecipientIDLength 0) recipientID
      SendAttempts := (j.SendAttempts % 256).toNat
      SURBKeys := goCopy [] surbKeys
      SURBID := goCopy (List.replicate SURBIDLength 0) surbID
      Block := b }

/-- Length-prefixed field framing used by the json model: a unary length,
a zero terminator, then the field bytes. -/
def encField (l : Bytes) : Bytes :=
  List.replicate l.length 1 ++ [0] ++ l

/-- Parse the unary length prefix of a framed field. -/
def parseLen : Bytes → Option (Nat × Bytes)
  | [] => none
  | 0 :: rest => some (0, rest)
  | 1 :: rest => (parseLen rest).map (fun p => (p.1 + 1, p.2))
  | _ => none

/-- Parse one framed field: its bytes and the remaining input. -/
def parseField (raw : Bytes) : Option (Bytes × Bytes) := do
  let (n, rest) ← parseLen raw
  if n ≤ rest.length then some (rest.take n, rest.drop n) else none

/-- Models Go's `encoding/json.Marshal` on `JsonStorageBlock`: an injective
byte serialization of the ten fields in declaration order (the integer field
rendered in decimal), inverted by `jsonUnmarshal`.  `json.Marshal` cannot
fail on this struct, so the encoder is total. -/
def jsonMarshal (j : JsonStorageBlock) : Bytes :=
  encField j.BlockID ++ encField j.Sender ++ encField j.SenderProvider ++
    encField j.Recipient ++ encField j.RecipientProvider ++ encField j.RecipientID ++
    encField (itoaInt j.SendAttempts) ++ encField j.SURBKeys ++ encField j.SURBID ++
    encField j.JsonBlock.MessageID ++ encField j.JsonBlock.Payload

/-- Models Go's `encoding/json.Unmarshal` into `JsonStorageBlock`: parses the
eleven framed components back; any framing or number-parse failure is a
decode error. -/
def jsonUnmarshal (raw : Bytes) : Except String JsonStorageBlock :=
  match (do
    let (blockID, r1) ← parseField raw
    let (sender, r2) ← parseField r1
    let (senderProvider, r3) ← parseField r2
    let (recipient, r4) ← parseField r3
    let (recipientProvider, r5) ← parseField r4
    let (recipientID, r6) ← parseField r5
    let (attempts, r7) ← parseField r6
    let (surbKeys, r8) ← parseField r7
    let (surbID, r9) ← parseField r8
    let (mid, r10) ← parseField r9
    let (payload, r11) ← parseField r10
    let a ← atoiInt attempts
    if r11 = ([] : Bytes) then
      some (JsonStorageBlock.mk blockID sender senderProvider recipient
        recipientProvider recipientID a surbKeys surbID ⟨mid, payload⟩)
    else none : Option JsonStorageBlock) with
  | some j => Except.ok j
  | none => Except.error "invalid json"

/-- `storage/db.go`: `StorageBlock.ToBytes` = json-marshal the json form. -/
def StorageBlock.ToBytes (s : StorageBlock) : Bytes :=
  jsonMarshal s.ToJsonStorageBlock

/-- `storage/db.go`: `FromBytes` = json-unmarshal, then convert back. -/
def FromBytes (raw : Bytes) : Except String StorageBlock := do
  let j ← jsonUnmarshal raw
  j.ToStorageBlock

/-- ASCII bytes of a Lean string literal (bucket names are Go strings). -/
def strBytes (s : String) : Bytes := s.data.map Char.toNat

/-- `storage/db.go`: `EgressBucketName = "outgoing"`. -/
def EgressBucketName : Bytes := strBytes "outgoing"

/-- Bucket-name suffix `"_ingress_blocks"` from `fmt.Sprintf`. -/
def ingressSuffix : Bytes := strBytes "_ingress_blocks"

/-- Bucket-name suffix `"_pop3"` from `fmt.Sprintf`. -/
def pop3Suffix : Bytes := strBytes "_pop3"

/-- bolt `tx.CreateBucketIfNotExists` when the caller also uses the returned
bucket: the (possibly fresh) bucket paired with the updated store. -/
def ensureBucket (name : Bytes) (s : Store) : Bucket × Store :=
  match lookupBucket name s with
  | some bk => (bk, s)
  | none => (⟨[], 0⟩, s ++ [(name, ⟨[], 0⟩)])

/-- `storage/db.go`: `Store.PutEgressBlock`.  Creates the egress bucket if
absent, draws the next sequence value, writes it big-endian into the 8-byte
block ID, stamps the record in place (`b.BlockID = blockID`), serializes the
stamped record and stores it under that key.  Returns the assigned ID, the
caller's record as left by the call, and the new store state. -/
def Store.PutEgressBlock (s : Store) (b : StorageBlock) :
    Res (Bytes × StorageBlock × Store) :=
  let q := ensureBucket EgressBucketName s
  let p := nextSequence q.1
  let blockID := beBytes 8 p.1
  let b' := { b with BlockID := blockID }
  let value := b'.ToBytes
  Res.ok (blockID, b',
    setBucket EgressBucketName { p.2 with data := putKV blockID value p.2.data } q.2)

/-- `storage/db.go`: `Store.Update`: errors when the egress bucket does not
exist, otherwise unconditionally writes the serialized record under the
given block ID. -/
def Store.Update (s : Store) (blockID : Bytes) (b : StorageBlock) : Res Store :=
  match lookupBucket EgressBucketName s with
  | none => Res.err "Update failed to get the bucket"
  | some bk =>
    Res.ok (setBucket EgressBucketName { bk with data := putKV blockID b.ToBytes bk.data } s)

/-- `storage/db.go`: `Store.GetKeys`: errors when the egress bucket does not
exist, otherwise cursor-enumerates all keys in key order. -/
def Store.GetKeys (s : Store) : Res (List Bytes) :=
  match lookupBucket EgressBucketName s with
  | none => Res.err "GetKeys failed to get the bucket"
  | some bk => Res.ok (bk.data.map Prod.fst)

/-- `storage/db.go`: `Store.Get`: no nil check on `tx.Bucket`, so a missing
egress bucket dereferences a nil pointer (panic); an absent key yields a
zero-length byte result with nil error. -/
def Store.Get (s : Store) (blockID : Bytes) : Res Bytes :=
  match lookupBucket EgressBucketName s with
  | none => Res.panics
  | some bk =>
    Res.ok (match getKV blockID bk.data with
      | none => []
      | some v => v)

/-- `storage/db.go`: `Store.Remove`: no nil check on `tx.Bucket`, so a
missing egress bucket panics; deleting an absent key is a no-op. -/
def Store.Remove (s : Store) (blockID : Bytes) : Res Store :=
  match lookupBucket EgressBucketName s with
  | none => Res.panics
  | some bk =>
    Res.ok (setBucket EgressBucketName { bk with data := delKV blockID bk.data } s)

/-- The list of single-bucket transactions run by `CreateAccountBuckets`:
for each account name in order, its ingress-blocks bucket then its pop3
bucket, each created in its own `db.Update` transaction. -/
def cabTxs : List Bytes → List Bytes
  | [] => []
  | a :: rest => (a ++ ingressSuffix) :: (a ++ pop3Suffix) :: cabTxs rest

/-- The store state after the first `k` of those transactions have
committed: models the state `CreateAccountBuckets` leaves behind when the
engine fails the next transaction and the loop aborts. -/
def cabPartial (accounts : List Bytes) (k : Nat) (s : Store) : Store :=
  ((cabTxs accounts).take k).foldl (fun st n => createBucketIfNotExists n st) s

/-- `storage/db.go`: `Store.CreateAccountBuckets`: runs every transaction;
`CreateBucketIfNotExists` on these non-empty names cannot fail, so the model
is total. -/
def Store.CreateAccountBuckets (s : Store) (accounts : List Bytes) : Store :=
  (cabTxs accounts).foldl (fun st n => createBucketIfNotExists n st) s

/-- `storage/db.go`: `Store.PutIngressBlock`: errors when the account's
ingress bucket does not exist; otherwise draws the next sequence value and
stores the serialized fragment under its decimal-string key. -/
def Store.PutIngressBlock (s : Store) (accountName : Bytes) (b : Block) : Res Store :=
  match lookupBucket (accountName ++ ingressSuffix) s with
  | none => Res.err "ingress store put failure: bucket not found"
  | some bk =>
    let p := nextSequence bk
    Res.ok (setBucket (accountName ++ ingressSuffix)
      { p.2 with data := putKV (itoaGo p.1) b.ToBytes p.2.data } s)

/-- The cursor scan inside `GetIngressBlocks`: deserialize every entry in
key order, aborting on a decode error, and keep the fragments (with their
keys) whose `MessageID` equals the requested one. -/
def scanIngress (messageID : Bytes) : List (Bytes × Bytes) →
    Except String (List Block × List Bytes)
  | [] => Except.ok ([], [])
  | (k, v) :: rest => do
    let b ← Block.FromBytes v
    let p ← scanIngress messageID rest
    if b.MessageID = messageID then Except.ok (b :: p.1, k :: p.2) else Except.ok p

/-- `storage/db.go`: `Store.GetIngressBlocks`: errors when the account's
ingress bucket does not exist; otherwise scans the whole bucket and returns
the fragments carrying the given message ID together with their keys. -/
def Store.GetIngressBlocks (s : Store) (accountName : Bytes) (messageID : Bytes) :
    Res (List Block × List Bytes) :=
  match lookupBucket (accountName ++ ingressSuffix) s with
  | none => Res.err "boltdb bucket for that account doesn't exist"
  | some bk =>
    match scanIngress messageID bk.data with
    | Except.ok p => Res.ok p
    | Except.error e => Res.err e

/-- `storage/db.go`: `Store.PutMessage`: no nil check on `tx.Bucket`, so a
missing pop3 bucket panics on `b.NextSequence()`; otherwise stores the
message under the next decimal-string sequence key. -/
def Store.PutMessage (s : Store) (accountName : Bytes) (message : Bytes) : Res Store :=
  match lookupBucket (accountName ++ pop3Suffix) s with
  | none => Res.panics
  | some bk =>
    let p := nextSequence bk
    Res.ok (setBucket (accountName ++ pop3Suffix)
      { p.2 with data := putKV (itoaGo p.1) message p.2.data } s)

/-- `storage/db.go`: `Store.deleteMessage`: no nil check on `tx.Bucket`, so
a missing pop3 bucket panics on `b.Delete`. -/
def Store.deleteMessage (s : Store) (accountName : Bytes) (item : Int) : Res Store :=
  match lookupBucket (accountName ++ pop3Suffix) s with
  | none => Res.panics
  | some bk =>
    Res.ok (setBucket (accountName ++ pop3Suffix)
      { bk with data := delKV (itoaInt item) bk.data } s)

/-- `storage/db.go`: `Store.DeleteMessages`: deletes each listed index in
its own transaction, aborting on the first failure. -/
def Store.DeleteMessages (s : Store) (accountName : Bytes) : List Int → Res Store
  | [] => Res.ok s
  | x :: rest =>
    match Store.deleteMessage s accountName x with
    | Res.ok s' => Store.DeleteMessages s' accountName rest
    | Res.err e => Res.err e
    | Res.panics => Res.panics

/-- An egress-side store call: a `PutEgressBlock` of a record, or a
`Remove` of a block ID. -/
inductive EOp where
  | put : StorageBlock → EOp
  | rem : Bytes → EOp
deriving DecidableEq

/-- Run a sequence of egress calls, collecting the block IDs assigned by the
puts; `none` when a call errors or panics. -/
def execE : Store → List EOp → Option (Store × List Bytes)
  | s, [] => some (s, [])
  | s, EOp.put b :: rest =>
    match Store.PutEgressBlock s b with
    | Res.ok r => (execE r.2.2 rest).map (fun q => (q.1, r.1 :: q.2))
    | _ => none
  | s, EOp.rem k :: rest =>
    match Store.Remove s k with
    | Res.ok s' => execE s' rest
    | _ => none

/-- Number of puts in an egress call sequence. -/
def countPuts : List EOp → Nat
  | [] => 0
  | EOp.put _ :: rest => countPuts rest + 1
  | EOp.rem _ :: rest => countPuts rest

/-- The egress bucket's sequence counter (0 when the bucket is absent). -/
def egressSeq (s : Store) : Nat :=
  match lookupBucket EgressBucketName s with
  | none => 0
  | some bk => bk.seq

/-- Run a sequence of `PutIngressBlock` calls for one account. -/
def execI (accountName : Bytes) : Store → List Block → Res Store
  | s, [] => Res.ok s
  | s, b :: rest =>
    match Store.PutIngressBlock s accountName b with
    | Res.ok s' => execI accountName s' rest
    | Res.err e => Res.err e
    | Res.panics => Res.panics

/-- A concrete well-formed egress record with a non-empty `SURBKeys` buffer,
used to exercise the codec. -/
def sampleRecord : StorageBlock where
  BlockID := List.replicate BlockIDLength 0
  Sender := strBytes "alice@acme.com"
  SenderProvider := strBytes "acme.com"
  Recipient := strBytes "bob@nsa.gov"
  RecipientProvider := strBytes "nsa.gov"
  RecipientID := List.replicate RecipientIDLength 0
  SendAttempts := 0
  SURBKeys := [1, 2, 3]
  SURBID := List.replicate SURBIDLength 0
  Block := ⟨List.replicate MessageIDLength 0, [42]⟩

/-- Invariant of the egress bucket under store traces: its keys are the
big-endian encodings of a strictly increasing list of sequence values drawn
from `1 .. seq`. -/
def EgressInv (s : Store) : Prop :=
  ∀ bk, lookupBucket EgressBucketName s = some bk →
    ∃ idxs : List Nat, idxs.Pairwise (· < ·) ∧
      (∀ i ∈ idxs, 1 ≤ i ∧ i ≤ bk.seq) ∧
      bk.data.map Prod.fst = idxs.map (beBytes 8)

theorem getKV_putKV (k v : Bytes) (d : List (Bytes × Bytes)) :
    getKV k (putKV k v d) = some v := by
  induction d with
  | nil => simp [putKV, getKV]
  | cons hd tl ih =>
    by_cases h : k = hd.1
    · simp [putKV, getKV, h]
    · by_cases h2 : byteLt k hd.1
      · simp [putKV, getKV, h, h2]
      · simp [putKV, getKV, h, h2, ih]

theorem delKV_of_getKV_none (k : Bytes) (d : List (Bytes × Bytes))
    (h : getKV k d = none) : delKV k d = d := by
  induction d with
  | nil => rfl
  | cons hd tl ih =>
    rw [getKV] at h
    by_cases hk : k = hd.1
    · simp [hk] at h
    · simp [hk] at h
      simp [delKV, hk, ih h]

theorem getKV_delKV_self (k : Bytes) (d : List (Bytes × Bytes)) :
    getKV k (delKV k d) = none := by
  induction d with
  | nil => rfl
  | cons hd tl ih =>
    by_cases hk : k = hd.1
    · subst hk
      simp [delKV, ih]
    · simp [delKV, getKV, hk, ih]

theorem delKV_idem (k : Bytes) (d : List (Bytes × Bytes)) :
    delKV k (delKV k d) = delKV k d :=
  delKV_of_getKV_none k _ (getKV_delKV_self k d)

theorem map_fst_delKV (k : Bytes) (d : List (Bytes × Bytes)) :
    (delKV k d).map Prod.fst = (d.map Prod.fst).filter (fun x => x ≠ k) := by
  induction d with
  | nil => rfl
  | cons hd tl ih =>
    by_cases hk : k = hd.1
    · subst hk
      simp [delKV, ih]
    · have : hd.1 ≠ k := fun hc => hk hc.symm
      simp [delKV, hk, ih, List.filter, this]

theorem lookup_setBucket_self (name : Bytes) (bk : Bucket) (s : Store) :
    lookupBucket name (setBucket name bk s) = some bk := by
  induction s with
  | nil => simp [setBucket, lookupBucket]
  | cons hd tl ih =>
    by_cases h : name = hd.1
    · simp [setBucket, lookupBucket, h]
    · simp [setBucket, lookupBucket, h, ih]

theorem setBucket_lookup_eq (name : Bytes) (bk : Bucket) (s : Store)
    (h : lookupBucket name s = some bk) : setBucket name bk s = s := by
  induction s with
  | nil => simp [lookupBucket] at h
  | cons hd tl ih =>
    obtain ⟨n, bkv⟩ := hd
    rw [lookupBucket] at h
    by_cases hk : name = n
    · simp [hk] at h
      simp [setBucket, hk, h]
    · simp [hk] at h
      simp [setBucket, hk, ih h]

theorem lookupBucket_append_left (n : Bytes) (s t : Store) (bk : Bucket)
    (h : lookupBucket n s = some bk) : lookupBucket n (s ++ t) = some bk := by
  induction s with
  | nil => simp [lookupBucket] at h
  | cons hd tl ih =>
    rw [lookupBucket] at h
    by_cases hk : n = hd.1
    · simp [hk] at h
      simp [lookupBucket, hk, h]
    · simp [hk] at h
      simp [lookupBucket, hk, ih h]

theorem lookupBucket_append_right (n : Bytes) (s t : Store)
    (h : lookupBucket n s = none) : lookupBucket n (s ++ t) = lookupBucket n t := by
  induction s with
  | nil => rfl
  | cons hd tl ih =>
    rw [lookupBucket] at h
    by_cases hk : n = hd.1
    · simp [hk] at h
    · simp [hk] at h
      simp [lookupBucket, hk, ih h]

theorem create_preserves (m n : Bytes) (s : Store) (bk : Bucket)
    (h : lookupBucket n s = some bk) :
    lookupBucket n (createBucketIfNotExists m s) = some bk := by
  rw [createBucketIfNotExists]
  cases hm : lookupBucket m s with
  | some bk2 => exact h
  | none => exact lookupBucket_append_left n s _ bk h

theorem create_of_present (m : Bytes) (s : Store)
    (h : (lookupBucket m s).isSome) : createBucketIfNotExists m s = s := by
  rw [createBucketIfNotExists]
  cases hm : lookupBucket m s with
  | some bk2 => rfl
  | none => rw [hm] at h; simp at h

theorem create_isSome (m : Bytes) (s : Store) :
    (lookupBucket m (createBucketIfNotExists m s)).isSome := by
  rw [createBucketIfNotExists]
  cases hm : lookupBucket m s with
  | some bk2 => simp [hm]
  | none => rw [lookupBucket_append_right m s _ hm]; simp [lookupBucket]

theorem foldl_create_preserves (l : List Bytes) (s : Store) (n : Bytes) (bk : Bucket)
    (h : lookupBucket n s = some bk) :
    lookupBucket n (l.foldl (fun st m => createBucketIfNotExists m st) s) = some bk := by
  induction l generalizing s with
  | nil => exact h
  | cons hd tl ih => exact ih _ (create_preserves hd n s bk h)

theorem foldl_create_isSome (l : List Bytes) (s : Store) (n : Bytes) (hn : n ∈ l) :
    (lookupBucket n (l.foldl (fun st m => createBucketIfNotExists m st) s)).isSome := by
  induction l generalizing s with
  | nil => simp at hn
  | cons hd tl ih =>
    rw [List.mem_cons] at hn
    rcases hn with hn | hn
    · subst hn
      by_cases htl : n ∈ tl
      · exact ih _ htl
      · cases hsome : lookupBucket n (createBucketIfNotExists n s) with
        | none => have := create_isSome n s; rw [hsome] at this; simp at this
        | some bk =>
          rw [List.foldl_cons,
            foldl_create_preserves tl (createBucketIfNotExists n s) n bk hsome]
          rfl
    · exact ih _ hn

theorem foldl_create_idem (l : List Bytes) (s : Store)
    (h : ∀ n ∈ l, (lookupBucket n s).isSome) :
    l.foldl (fun st m => createBucketIfNotExists m st) s = s := by
  induction l with
  | nil => rfl
  | cons hd tl ih =>
    rw [List.foldl_cons, create_of_present hd s (h hd (by simp))]
    exact ih (fun n hn => h n (by simp [hn]))

theorem mem_cabTxs (accounts : List Bytes) (a : Bytes) (ha : a ∈ accounts) :
    (a ++ ingressSuffix) ∈ cabTxs accounts ∧ (a ++ pop3Suffix) ∈ cabTxs accounts := by
  induction accounts with
  | nil => simp at ha
  | cons hd tl ih =>
    rw [List.mem_cons] at ha
    rcases ha with ha | ha
    · subst ha
      exact ⟨by simp [cabTxs], by simp [cabTxs]⟩
    · exact ⟨by simp [cabTxs, (ih ha).1], by simp [cabTxs, (ih ha).2]⟩

theorem beBytes_mod (w : Nat) : ∀ n, beBytes w (n % 256 ^ w) = beBytes w n := by
  induction w with
  | zero => intro n; rfl
  | succ w ih =>
    intro n
    simp only [beBytes]
    congr 1
    · rw [pow_succ, Nat.mod_mul_right_div_self]
      exact Nat.mod_mod_of_dvd _ dvd_rfl
    · calc beBytes w (n % 256 ^ (w + 1))
          = beBytes w (n % 256 ^ (w + 1) % 256 ^ w) := (ih _).symm
        _ = beBytes w (n % 256 ^ w) := by
            rw [Nat.mod_mod_of_dvd _ (pow_dvd_pow 256 (Nat.le_succ w))]
        _ = beBytes w n := ih n

theorem byteLt_beBytes : ∀ (w m n : Nat), m < n → n < 256 ^ w →
    byteLt (beBytes w m) (beBytes w n) = true := by
  intro w
  induction w with
  | zero => intro m n hmn hn; simp at hn; omega
  | succ w ih =>
    intro m n hmn hn
    have h256 : 0 < (256 : ℕ) ^ w := pow_pos (by norm_num) w
    have hmlt : m < 256 ^ w * 256 := by rw [← pow_succ]; exact hmn.trans hn
    have hnlt : n < 256 ^ w * 256 := by rw [← pow_succ]; exact hn
    have hmd : m / 256 ^ w < 256 := Nat.div_lt_of_lt_mul hmlt
    have hnd : n / 256 ^ w < 256 := Nat.div_lt_of_lt_mul hnlt
    simp only [beBytes, Nat.mod_eq_of_lt hmd, Nat.mod_eq_of_lt hnd]
    rcases lt_trichotomy (m / 256 ^ w) (n / 256 ^ w) with h | h | h
    · simp [byteLt, h]
    · have hm2 : m % 256 ^ w < n % 256 ^ w := by
        have lm := Nat.mod_add_div m (256 ^ w)
        have ln := Nat.mod_add_div n (256 ^ w)
        rw [← lm, ← ln, h] at hmn
        exact lt_of_add_lt_add_right hmn
      have hn2 : n % 256 ^ w < 256 ^ w := Nat.mod_lt _ h256
      have ht := ih (m % 256 ^ w) (n % 256 ^ w) hm2 hn2
      rw [beBytes_mod, beBytes_mod] at ht
      simp [byteLt, h, ht]
    · exact absurd h (not_lt.mpr (Nat.div_le_div_right hmn.le))

theorem beUint_aux (w : Nat) : ∀ (a n : Nat),
    (beBytes w n).foldl (fun x c => x * 256 + c) a = a * 256 ^ w + n % 256 ^ w := by
  induction w with
  | zero => intro a n; simp [beBytes, Nat.mod_one]
  | succ w ih =>
    intro a n
    simp only [beBytes, List.foldl_cons, ih]
    rw [pow_succ, Nat.mod_mul]
    ring

theorem beUint_beBytes (w n : Nat) (h : n < 256 ^ w) : beUint (beBytes w n) = n := by
  rw [beUint, beUint_aux, Nat.zero_mul, Nat.zero_add, Nat.mod_eq_of_lt h]

theorem byteLt_irrefl (a : Bytes) : byteLt a a = false := by
  induction a with
  | nil => rfl
  | cons x xs ih => simp [byteLt, ih]

theorem byteLt_asymm : ∀ a b, byteLt a b = true → byteLt b a = false := by
  intro a
  induction a with
  | nil =>
    intro b h
    cases b with
    | nil => simp [byteLt] at h
    | cons y ys => rfl
  | cons x xs ih =>
    intro b h
    cases b with
    | nil => simp [byteLt] at h
    | cons y ys =>
      simp only [byteLt] at h ⊢
      by_cases h1 : x < y
      · have h2 : ¬ y < x := by omega
        simp [h1, h2]
      · by_cases h2 : y < x
        · simp [h1, h2] at h
        · simp [h1, h2] at h ⊢
          exact ih ys h

theorem byteLt_ne (a b : Bytes) (h : byteLt a b = true) : a ≠ b := by
  intro heq
  subst heq
  rw [byteLt_irrefl] at h
  exact Bool.noConfusion h

theorem putKV_append_of_gt (k v : Bytes) (d : List (Bytes × Bytes))
    (h : ∀ kv ∈ d, byteLt kv.1 k = true) : putKV k v d = d ++ [(k, v)] := by
  induction d with
  | nil => rfl
  | cons hd tl ih =>
    have hk := h hd (by simp)
    have hne : k ≠ hd.1 := fun he => byteLt_ne hd.1 k hk he.symm
    have hnlt : byteLt k hd.1 = false := byteLt_asymm hd.1 k hk
    simp [putKV, hne, hnlt, ih (fun kv hkv => h kv (by simp [hkv]))]

theorem ensureBucket_lookup (name : Bytes) (s : Store) :
    lookupBucket name (ensureBucket name s).2 = some (ensureBucket name s).1 := by
  rw [ensureBucket]
  cases h : lookupBucket name s with
  | some bk => simpa using h
  | none =>
    simp only
    rw [lookupBucket_append_right name s _ h]
    simp [lookupBucket]

theorem ensureBucket_seq (s : Store) :
    (ensureBucket EgressBucketName s).1.seq = egressSeq s := by
  rw [ensureBucket, egressSeq]
  cases h : lookupBucket EgressBucketName s <;> rfl

theorem egressSeq_setBucket (bk : Bucket) (s : Store) :
    egressSeq (setBucket EgressBucketName bk s) = bk.seq := by
  rw [egressSeq, lookup_setBucket_self]

theorem countPuts_le : ∀ ops : List EOp, countPuts ops ≤ ops.length := by
  intro ops
  induction ops with
  | nil => exact Nat.le_refl 0
  | cons op rest ih =>
    cases op with
    | put b => simpa [countPuts] using ih
    | rem k =>
      rw [countPuts, List.length_cons]
      omega

theorem pairwise_lt_sublist_range' : ∀ (l : List Nat) (lo n : Nat),
    l.Pairwise (· < ·) → (∀ x ∈ l, lo ≤ x ∧ x < n) →
    l.Sublist (List.range' lo (n - lo)) := by
  intro l
  induction l with
  | nil => intro lo n _ _; exact List.nil_sublist _
  | cons x xs ih =>
    intro lo n hpw hbd
    obtain ⟨hlo, hxn⟩ := hbd x (by simp)
    have hx1 : xs.Sublist (List.range' (x + 1) (n - (x + 1))) := by
      apply ih
      · exact (List.pairwise_cons.mp hpw).2
      · intro y hy
        exact ⟨(List.pairwise_cons.mp hpw).1 y hy, (hbd y (by simp [hy])).2⟩
    have h1 : List.range' x (n - x) = x :: List.range' (x + 1) (n - (x + 1)) := by
      have hx : n - x = (n - (x + 1)) + 1 := by omega
      rw [hx, List.range'_succ]
    have h2 := List.range'_append_1 lo (x - lo) (n - x)
    have e1 : lo + (x - lo) = x := by omega
    have e2 : (n - x) + (x - lo) = n - lo := by omega
    rw [e1, e2] at h2
    rw [← h2, h1]
    exact List.Sublist.trans (List.Sublist.cons₂ x hx1) (List.sublist_append_right _ _)

theorem putEgress_eq (s : Store) (b : StorageBlock) :
    Store.PutEgressBlock s b =
      Res.ok (beBytes 8 ((egressSeq s + 1) % 2 ^ 64),
        { b with BlockID := beBytes 8 ((egressSeq s + 1) % 2 ^ 64) },
        setBucket EgressBucketName
          ⟨putKV (beBytes 8 ((egressSeq s + 1) % 2 ^ 64))
              (StorageBlock.ToBytes
                { b with BlockID := beBytes 8 ((egressSeq s + 1) % 2 ^ 64) })
              (ensureBucket EgressBucketName s).1.data,
            (egressSeq s + 1) % 2 ^ 64⟩
          (ensureBucket EgressBucketName s).2) := by
  simp only [Store.PutEgressBlock, nextSequence, ensureBucket_seq]

theorem ensure_data_inv (s : Store) (hin : EgressInv s) :
    ∃ idxs : List Nat, idxs.Pairwise (· < ·) ∧
      (∀ i ∈ idxs, 1 ≤ i ∧ i ≤ egressSeq s) ∧
      (ensureBucket EgressBucketName s).1.data.map Prod.fst = idxs.map (beBytes 8) := by
  rw [ensureBucket, egressSeq]
  cases h : lookupBucket EgressBucketName s with
  | some bk => simpa using hin bk h
  | none => exact ⟨[], by simp, by simp, by simp⟩

theorem egressInv_after_put (s : Store) (v : Bytes) (hin : EgressInv s)
    (hseq : egressSeq s + 1 < 2 ^ 64) :
    EgressInv (setBucket EgressBucketName
      ⟨putKV (beBytes 8 (egressSeq s + 1)) v (ensureBucket EgressBucketName s).1.data,
        egressSeq s + 1⟩ (ensureBucket EgressBucketName s).2) := by
  intro bk2 h2
  rw [lookup_setBucket_self] at h2
  injection h2 with h2
  obtain ⟨idxs, hpw, hbd, hkeys⟩ := ensure_data_inv s hin
  have h264 : (256 : ℕ) ^ 8 = 2 ^ 64 := by norm_num
  have happ : putKV (beBytes 8 (egressSeq s + 1)) v (ensureBucket EgressBucketName s).1.data
      = (ensureBucket EgressBucketName s).1.data ++ [(beBytes 8 (egressSeq s + 1), v)] := by
    apply putKV_append_of_gt
    intro kv hkv
    have hmem : kv.1 ∈ (ensureBucket EgressBucketName s).1.data.map Prod.fst :=
      List.mem_map_of_mem _ hkv
    rw [hkeys] at hmem
    obtain ⟨i, hi, hie⟩ := List.mem_map.mp hmem
    rw [← hie]
    exact byteLt_beBytes 8 i (egressSeq s + 1)
      (by have := (hbd i hi).2; omega) (by rw [h264]; omega)
  subst h2
  refine ⟨idxs ++ [egressSeq s + 1], ?_, ?_, ?_⟩
  · rw [List.pairwise_append]
    refine ⟨hpw, by simp, fun a ha b hb => ?_⟩
    simp only [List.mem_singleton] at hb
    subst hb
    have := (hbd a ha).2
    omega
  · intro i hi
    rcases List.mem_append.mp hi with hi | hi
    · have := hbd i hi
      refine ⟨this.1, ?_⟩
      show i ≤ egressSeq s + 1
      omega
    · simp only [List.mem_singleton] at hi
      subst hi
      exact ⟨by omega, Nat.le_refl _⟩
  · simp [happ, hkeys]

theorem egressInv_after_del (s : Store) (k : Bytes) (bk : Bucket)
    (hl : lookupBucket EgressBucketName s = some bk) (hin : EgressInv s) :
    EgressInv (setBucket EgressBucketName ⟨delKV k bk.data, bk.seq⟩ s) := by
  intro bk2 h2
  rw [lookup_setBucket_self] at h2
  injection h2 with h2
  obtain ⟨idxs, hpw, hbd, hkeys⟩ := hin bk hl
  subst h2
  refine ⟨idxs.filter (fun i => beBytes 8 i ≠ k), ?_, ?_, ?_⟩
  · exact hpw.filter _
  · intro i hi
    exact hbd i (List.mem_of_mem_filter hi)
  · show (delKV k bk.data).map Prod.fst = _
    rw [map_fst_delKV, hkeys, List.filter_map]
    rfl

theorem execE_spec : ∀ (ops : List EOp) (s s2 : Store) (ids : List Bytes),
    execE s ops = some (s2, ids) → EgressInv s →
    egressSeq s + ops.length < 2 ^ 64 →
    ids = (List.range (countPuts ops)).map (fun k => beBytes 8 (egressSeq s + k + 1)) ∧
    EgressInv s2 ∧ egressSeq s2 = egressSeq s + countPuts ops := by
  intro ops
  induction ops with
  | nil =>
    intro s s2 ids h hin hb
    simp only [execE, Option.some.injEq, Prod.mk.injEq] at h
    obtain ⟨rfl, rfl⟩ := h
    simp [countPuts]
    exact hin
  | cons op rest ih =>
    intro s s2 ids h hin hb
    cases op with
    | put b =>
      simp only [List.length_cons] at hb
      have hm : (egressSeq s + 1) % 2 ^ 64 = egressSeq s + 1 :=
        Nat.mod_eq_of_lt (by omega)
      simp only [execE, putEgress_eq, hm] at h
      set state2 := setBucket EgressBucketName
        ⟨putKV (beBytes 8 (egressSeq s + 1))
            (StorageBlock.ToBytes { b with BlockID := beBytes 8 (egressSeq s + 1) })
            (ensureBucket EgressBucketName s).1.data,
          egressSeq s + 1⟩ (ensureBucket EgressBucketName s).2 with hstate2
      cases hrest : execE state2 rest with
      | none => rw [hrest] at h; simp at h
      | some q =>
        rw [hrest] at h
        simp only [Option.map_some', Option.some.injEq, Prod.mk.injEq] at h
        obtain ⟨rfl, rfl⟩ := h
        have hinv2 : EgressInv state2 := by
          rw [hstate2]
          exact egressInv_after_put s _ hin (by omega)
        have hseq2 : egressSeq state2 = egressSeq s + 1 := by
          rw [hstate2, egressSeq_setBucket]
        obtain ⟨hids, hinvf, hseqf⟩ := ih state2 q.1 q.2 hrest hinv2 (by omega)
        refine ⟨?_, hinvf, ?_⟩
        · rw [hids, hseq2, countPuts, List.range_succ_eq_map, List.map_cons,
            List.map_map]
          congr 1
          apply List.map_congr_left
          intro k hk
          simp only [Function.comp_apply, Nat.succ_eq_add_one]
          congr 1
          omega
        · rw [hseqf, hseq2, countPuts]
          omega
    | rem k =>
      simp only [List.length_cons] at hb
      rw [execE] at h
      cases hl : lookupBucket EgressBucketName s with
      | none => simp [Store.Remove, hl] at h
      | some bk =>
        have hr : Store.Remove s k =
            Res.ok (setBucket EgressBucketName ⟨delKV k bk.data, bk.seq⟩ s) := by
          simp [Store.Remove, hl]
        rw [hr] at h
        have hseqs : egressSeq s = bk.seq := by rw [egressSeq, hl]
        have hseq2 : egressSeq (setBucket EgressBucketName ⟨delKV k bk.data, bk.seq⟩ s)
            = egressSeq s := by rw [egressSeq_setBucket, hseqs]
        have hinv2 : EgressInv (setBucket EgressBucketName ⟨delKV k bk.data, bk.seq⟩ s) :=
          egressInv_after_del s k bk hl hin
        obtain ⟨hids, hinvf, hseqf⟩ :=
          ih _ s2 ids h hinv2 (by rw [hseq2]; omega)
        refine ⟨?_, hinvf, ?_⟩
        · rw [hids, hseq2, countPuts]
        · rw [hseqf, hseq2, countPuts]

theorem setBucket_setBucket (name : Bytes) (bk1 bk2 : Bucket) (s : Store) :
    setBucket name bk2 (setBucket name bk1 s) = setBucket name bk2 s := by
  induction s with
  | nil => simp [setBucket]
  | cons hd tl ih =>
    by_cases h : name = hd.1
    · simp [setBucket, h]
    · simp [setBucket, h, ih]

theorem getKV_none_of_not_mem (k : Bytes) (d : List (Bytes × Bytes))
    (h : k ∉ d.map Prod.fst) : getKV k d = none := by
  induction d with
  | nil => rfl
  | cons hd tl ih =>
    simp only [List.map_cons, List.mem_cons] at h
    push_neg at h
    simp [getKV, h.1, ih h.2]

theorem putKV_perm (k v : Bytes) (d : List (Bytes × Bytes))
    (h : getKV k d = none) : (putKV k v d).Perm ((k, v) :: d) := by
  induction d with
  | nil => exact List.Perm.refl _
  | cons hd tl ih =>
    rw [getKV] at h
    by_cases hk : k = hd.1
    · simp [hk] at h
    · simp only [hk, if_false] at h
      rw [putKV]
      by_cases hlt : byteLt k hd.1
      · simp [hk, hlt]
      · simp only [hk, hlt, if_false]
        exact ((ih h).cons hd).trans (List.Perm.swap _ _ _)

theorem decAux_val : ∀ (fuel n : Nat), n ≤ fuel →
    (decAux fuel n).foldr (fun c a => a * 10 + (c - 48)) 0 = n := by
  intro fuel
  induction fuel with
  | zero => intro n h; interval_cases n; rfl
  | succ fuel ih =>
    intro n h
    cases n with
    | zero => rfl
    | succ n =>
      rw [decAux, List.foldr_cons, ih ((n + 1) / 10) (by omega
        )]
      omega

theorem decVal_decBytes (n : Nat) : decVal (decBytes n) = n := by
  rw [decBytes]
  by_cases h : n = 0
  · subst h
    rfl
  · rw [if_neg h, decVal, List.foldl_reverse]
    exact decAux_val n n (Nat.le_refl n)

theorem itoaGo_inj (m n : Nat) (hm : m < 2 ^ 63) (hn : n < 2 ^ 63)
    (h : itoaGo m = itoaGo n) : m = n := by
  rw [itoaGo, if_pos hm, itoaGo, if_pos hn] at h
  have hv := congrArg decVal h
  rwa [decVal_decBytes, decVal_decBytes] at hv

theorem block_roundtrip (b : Block) (h : b.MessageID.length = MessageIDLength) :
    Block.FromBytes b.ToBytes = Except.ok b := by
  rw [Block.ToBytes, Block.FromBytes, if_pos (by simp [h]),
    List.take_left' h, List.drop_left' h]

theorem scanIngress_spec (mid : Bytes) : ∀ d : List (Bytes × Bytes),
    (∀ kv ∈ d, ∃ b : Block, Block.FromBytes kv.2 = Except.ok b) →
    ∃ r, scanIngress mid d = Except.ok r ∧
      r.1.zip r.2 = d.filterMap (fun kv =>
        match Block.FromBytes kv.2 with
        | Except.ok b => if b.MessageID = mid then some (b, kv.1) else none
        | Except.error _ => none) := by
  intro d
  induction d with
  | nil => exact fun _ => ⟨([], []), rfl, rfl⟩
  | cons hd tl ih =>
    intro hdec
    obtain ⟨b, hb⟩ := hdec hd (by simp)
    obtain ⟨p, hp, hzip⟩ := ih (fun kv hkv => hdec kv (by simp [hkv]))
    by_cases hm : b.MessageID = mid
    · refine ⟨(b :: p.1, hd.1 :: p.2), ?_, ?_⟩
      · simp [scanIngress, hb, hp, hm, Bind.bind, Except.bind]
      · simp [List.filterMap_cons, hb, hm, ← hzip]
    · refine ⟨p, ?_, ?_⟩
      · simp [scanIngress, hb, hp, hm, Bind.bind, Except.bind]
      · simp [List.filterMap_cons, hb, hm, hzip]

theorem filterMap_zipped (mid : Bytes) : ∀ (bs : List Block) (ks : List Bytes),
    bs.length = ks.length →
    (∀ b ∈ bs, b.MessageID.length = MessageIDLength) →
    (ks.zip (bs.map Block.ToBytes)).filterMap (fun kv =>
        match Block.FromBytes kv.2 with
        | Except.ok b => if b.MessageID = mid then some (b, kv.1) else none
        | Except.error _ => none)
      = (bs.zip ks).filter (fun p => p.1.MessageID = mid) := by
  intro bs
  induction bs with
  | nil => intro ks _ _; simp
  | cons b bs ih =>
    intro ks hlen hwf
    cases ks with
    | nil => simp at hlen
    | cons k ks =>
      simp only [List.length_cons, Nat.add_right_cancel_iff] at hlen
      have hb := block_roundtrip b (hwf b (by simp))
      by_cases hm : b.MessageID = mid
      · simp [List.filterMap_cons, List.filter_cons, hb, hm,
          ih ks hlen (fun x hx => hwf x (by simp [hx]))]
      · simp [List.filterMap_cons, List.filter_cons, hb, hm,
          ih ks hlen (fun x hx => hwf x (by simp [hx]))]

theorem execI_spec : ∀ (blocks : List Block) (s : Store) (acct : Bytes) (bk : Bucket),
    lookupBucket (acct ++ ingressSuffix) s = some bk →
    (∀ k ∈ bk.data.map Prod.fst, ∃ i, 1 ≤ i ∧ i ≤ bk.seq ∧ k = itoaGo i) →
    bk.seq + blocks.length < 2 ^ 63 →
    ∃ bk2,
      execI acct s blocks = Res.ok (setBucket (acct ++ ingressSuffix) bk2 s) ∧
      bk2.seq = bk.seq + blocks.length ∧
      bk2.data.Perm (bk.data ++
        (((List.range' (bk.seq + 1) blocks.length).map itoaGo).zip
          (blocks.map Block.ToBytes))) := by
  intro blocks
  induction blocks with
  | nil =>
    intro s acct bk hl hkeys hb
    refine ⟨bk, ?_, by simp, by simp⟩
    rw [execI, setBucket_lookup_eq _ _ _ hl]
  | cons b rest ih =>
    intro s acct bk hl hkeys hb
    simp only [List.length_cons] at hb
    have hv : (bk.seq + 1) % 2 ^ 64 = bk.seq + 1 := by
      have h63 : (2:ℕ) ^ 63 < 2 ^ 64 := by norm_num
      exact Nat.mod_eq_of_lt (by omega)
    have hfresh : itoaGo (bk.seq + 1) ∉ bk.data.map Prod.fst := by
      intro hmem
      obtain ⟨i, hi1, hi2, hie⟩ := hkeys _ hmem
      have : i = bk.seq + 1 := itoaGo_inj i (bk.seq + 1) (by omega) (by omega) hie.symm
      omega
    have hput : Store.PutIngressBlock s acct b =
        Res.ok (setBucket (acct ++ ingressSuffix)
          ⟨putKV (itoaGo (bk.seq + 1)) b.ToBytes bk.data, bk.seq + 1⟩ s) := by
      simp only [Store.PutIngressBlock, hl, nextSequence]
      rw [hv]
    have hpkv : (putKV (itoaGo (bk.seq + 1)) b.ToBytes bk.data).Perm
        ((itoaGo (bk.seq + 1), b.ToBytes) :: bk.data) :=
      putKV_perm _ _ _ (getKV_none_of_not_mem _ _ hfresh)
    set bk1 : Bucket := ⟨putKV (itoaGo (bk.seq + 1)) b.ToBytes bk.data, bk.seq + 1⟩
      with hbk1
    have hs1 : bk1.seq = bk.seq + 1 := rfl
    have hl1 : lookupBucket (acct ++ ingressSuffix)
        (setBucket (acct ++ ingressSuffix) bk1 s) = some bk1 :=
      lookup_setBucket_self _ _ _
    have hkeys1 : ∀ k ∈ bk1.data.map Prod.fst, ∃ i, 1 ≤ i ∧ i ≤ bk1.seq ∧ k = itoaGo i := by
      intro k hk
      have hk2 : k ∈ ((itoaGo (bk.seq + 1), b.ToBytes) :: bk.data).map Prod.fst :=
        (hpkv.map Prod.fst).mem_iff.mp hk
      simp only [List.map_cons, List.mem_cons] at hk2
      rcases hk2 with hk2 | hk2
      · exact ⟨bk.seq + 1, by omega, by omega, hk2⟩
      · obtain ⟨i, hi1, hi2, hie⟩ := hkeys k hk2
        exact ⟨i, hi1, by omega, hie⟩
    obtain ⟨bk2, hexec, hseq, hperm⟩ :=
      ih (setBucket (acct ++ ingressSuffix) bk1 s) acct bk1 hl1 hkeys1 (by omega)
    refine ⟨bk2, ?_, by simp only [List.length_cons]; omega, ?_⟩
    · simp only [execI, hput]
      rw [hexec, setBucket_setBucket]
    · refine hperm.trans ?_
      have hstep : bk1.data.Perm ((itoaGo (bk.seq + 1), b.ToBytes) :: bk.data) := hpkv
      refine (hstep.append_right _).trans ?_
      simp only [List.length_cons]
      rw [List.range'_succ, List.map_cons, List.map_cons, List.zip_cons_cons]
      exact List.perm_middle.symm

set_option maxRecDepth 20000

/-- C1: the claimed round-trip `FromBytes (ToBytes r) = r` fails on the code
for a record with a non-empty `surb_keys` buffer: decoding yields the record
with `SURBKeys` emptied (the `copy` into the nil `SURBKeys` slice in
`ToStorageBlock` copies nothing), so the decoded record differs from `r`
exactly in that field. -/
theorem storage_c1_roundtrip_drops_surbkeys :
    FromBytes (StorageBlock.ToBytes sampleRecord) =
      Except.ok { sampleRecord with SURBKeys := [] } ∧
    sampleRecord.SURBKeys ≠ [] :=
  ⟨by rfl, by decide⟩

/-- C2: `PutEgressBlock` on a fresh store followed by `Get` on the returned
block ID yields bytes that decode to the input record with the assigned
`BlockID` — but with `SURBKeys` emptied as well, contradicting the claim
that every field other than `block_id` is preserved. -/
theorem storage_c2_put_get_drops_surbkeys :
    ∃ s v,
      Store.PutEgressBlock emptyStore sampleRecord =
        Res.ok (beBytes 8 1, { sampleRecord with BlockID := beBytes 8 1 }, s) ∧
      Store.Get s (beBytes 8 1) = Res.ok v ∧
      FromBytes v =
        Except.ok { sampleRecord with BlockID := beBytes 8 1, SURBKeys := [] } ∧
      sampleRecord.SURBKeys ≠ [] :=
  ⟨_, _, by rfl, by rfl, by rfl, by decide⟩

/-- C3: contrary to the claim that no store operation panics on an ordinary
not-found condition, `Get` and `Remove` on a store whose egress partition
was never created, and `PutMessage` and `DeleteMessages` for an account
whose mailbox partition does not exist, all dereference the nil bucket
pointer returned by `tx.Bucket` and panic. -/
theorem storage_c3_nil_bucket_panics :
    Store.Get emptyStore (beBytes 8 1) = Res.panics ∧
    Store.Remove emptyStore (beBytes 8 1) = Res.panics ∧
    Store.PutMessage emptyStore (strBytes "alice") [1, 2] = Res.panics ∧
    Store.DeleteMessages emptyStore (strBytes "alice") [1] = Res.panics :=
  ⟨by rfl, by rfl, by rfl, by rfl⟩

/-- C6 (counterexample): on a fresh store no records are pending, yet
`GetKeys` returns an error, not an empty sequence, because the egress
partition was never created. -/
theorem storage_c6_getkeys_error_on_fresh_store :
    Store.GetKeys emptyStore = Res.err "GetKeys failed to get the bucket" := by
  rfl

/-- C4: `Update` fails with the not-found error exactly when the egress
partition does not exist; when it exists, `Update` succeeds for every block
ID as an unconditional upsert: the serialized record is stored under the
key, creating the entry when absent and overwriting it when present. -/
theorem storage_c4_update_notfound_iff_upsert (s : Store) (id : Bytes) (b : StorageBlock) :
    (Store.Update s id b = Res.err "Update failed to get the bucket" ↔
      lookupBucket EgressBucketName s = none) ∧
    ∀ bk, lookupBucket EgressBucketName s = some bk →
      Store.Update s id b =
        Res.ok (setBucket EgressBucketName { bk with data := putKV id b.ToBytes bk.data } s) ∧
      getKV id (putKV id b.ToBytes bk.data) = some b.ToBytes := by
  refine ⟨⟨fun h => ?_, fun h => by simp [Store.Update, h]⟩, fun bk h => ?_⟩
  · cases hl : lookupBucket EgressBucketName s with
    | none => rfl
    | some bk => simp [Store.Update, hl] at h
  · exact ⟨by simp [Store.Update, h], getKV_putKV id b.ToBytes bk.data⟩

/-- C4 (witness): on a store holding an empty egress partition, `Update`
with block ID 1 succeeds and creates the entry. -/
theorem storage_c4_update_witness :
    Store.Update (createBucketIfNotExists EgressBucketName emptyStore) (beBytes 8 1)
        sampleRecord =
      Res.ok (setBucket EgressBucketName
        { (⟨[], 0⟩ : Bucket) with data := putKV (beBytes 8 1) sampleRecord.ToBytes [] }
        (createBucketIfNotExists EgressBucketName emptyStore)) ∧
    getKV (beBytes 8 1) (putKV (beBytes 8 1) sampleRecord.ToBytes []) =
      some sampleRecord.ToBytes :=
  (storage_c4_update_notfound_iff_upsert _ _ _).2 ⟨[], 0⟩ (by rfl)

/-- C9: within an existing egress partition an absent key is not an error:
`Get` returns a zero-length result with no error and `Remove` succeeds
leaving the store unchanged; moreover any `Remove` leaves a state whose key
list no longer contains the ID, and a second `Remove` of the same ID
succeeds and changes nothing. -/
theorem storage_c9_absent_key_noop (s : Store) (bk : Bucket) (id : Bytes)
    (h : lookupBucket EgressBucketName s = some bk) :
    (getKV id bk.data = none →
      Store.Get s id = Res.ok [] ∧ Store.Remove s id = Res.ok s) ∧
    Store.Remove s id =
      Res.ok (setBucket EgressBucketName { bk with data := delKV id bk.data } s) ∧
    Store.GetKeys (setBucket EgressBucketName { bk with data := delKV id bk.data } s) =
      Res.ok ((bk.data.map Prod.fst).filter (fun x => x ≠ id)) ∧
    id ∉ (bk.data.map Prod.fst).filter (fun x => x ≠ id) ∧
    Store.Remove (setBucket EgressBucketName { bk with data := delKV id bk.data } s) id =
      Res.ok (setBucket EgressBucketName { bk with data := delKV id bk.data } s) := by
  refine ⟨fun habs => ⟨?_, ?_⟩, ?_, ?_, ?_, ?_⟩
  · simp [Store.Get, h, habs]
  · simp [Store.Remove, h, delKV_of_getKV_none id bk.data habs,
      setBucket_lookup_eq EgressBucketName bk s h]
  · simp [Store.Remove, h]
  · simp [Store.GetKeys, lookup_setBucket_self, map_fst_delKV]
  · simp [List.mem_filter]
  · simp [Store.Remove, lookup_setBucket_self, delKV_idem,
      setBucket_lookup_eq EgressBucketName ⟨delKV id bk.data, bk.seq⟩
        (setBucket EgressBucketName ⟨delKV id bk.data, bk.seq⟩ s)
        (lookup_setBucket_self _ _ _)]

/-- C9 (witness): on a store holding an empty egress partition, `Get` of the
absent block ID 5 returns empty bytes without error and `Remove` of it is a
no-op. -/
theorem storage_c9_absent_key_witness :
    Store.Get (createBucketIfNotExists EgressBucketName emptyStore) (beBytes 8 5) =
      Res.ok [] ∧
    Store.Remove (createBucketIfNotExists EgressBucketName emptyStore) (beBytes 8 5) =
      Res.ok (createBucketIfNotExists EgressBucketName emptyStore) :=
  (storage_c9_absent_key_noop (createBucketIfNotExists EgressBucketName emptyStore)
    ⟨[], 0⟩ (beBytes 8 5) (by rfl)).1 (by rfl)

/-- C10: `PutEgressBlock` stamps the caller's record in place: the call
returns the record with the newly assigned block ID written into its
`BlockID` field, and the bytes stored under that ID are the serialization
of the stamped record (the ID is written before encoding). -/
theorem storage_c10_put_mutates_record (s : Store) (b : StorageBlock) :
    ∃ id s2,
      Store.PutEgressBlock s b = Res.ok (id, { b with BlockID := id }, s2) ∧
      Store.Get s2 id = Res.ok (StorageBlock.ToBytes { b with BlockID := id }) := by
  refine ⟨_, _, rfl, ?_⟩
  simp [Store.Get, lookup_setBucket_self, getKV_putKV]

/-- C8: `CreateAccountBuckets` is idempotent — running it a second time on
its own output changes nothing, so the same two partitions per name remain
with their data intact; both partitions exist for every listed name; and the
call is a sequence of single-bucket transactions, so after any prefix of
them has committed (the state a mid-call engine failure leaves behind),
every partition present earlier is still present unchanged. -/
theorem storage_c8_create_account_buckets_idempotent (accounts : List Bytes) (s : Store) :
    Store.CreateAccountBuckets (Store.CreateAccountBuckets s accounts) accounts =
      Store.CreateAccountBuckets s accounts ∧
    (∀ a ∈ accounts,
      (lookupBucket (a ++ ingressSuffix) (Store.CreateAccountBuckets s accounts)).isSome ∧
      (lookupBucket (a ++ pop3Suffix) (Store.CreateAccountBuckets s accounts)).isSome) ∧
    (∀ j k name bk, j ≤ k →
      lookupBucket name (cabPartial accounts j s) = some bk →
      lookupBucket name (cabPartial accounts k s) = some bk) := by
  refine ⟨?_, ?_, ?_⟩
  · exact foldl_create_idem _ _ (fun n hn =>
      foldl_create_isSome (cabTxs accounts) s n hn)
  · intro a ha
    exact ⟨foldl_create_isSome _ s _ (mem_cabTxs accounts a ha).1,
      foldl_create_isSome _ s _ (mem_cabTxs accounts a ha).2⟩
  · intro j k name bk hjk h
    have hsplit : (cabTxs accounts).take k =
        (cabTxs accounts).take j ++ ((cabTxs accounts).take k).drop j := by
      have hs := List.take_append_drop j ((cabTxs accounts).take k)
      rw [List.take_take, min_eq_left hjk] at hs
      exact hs.symm
    rw [cabPartial, hsplit, List.foldl_append]
    exact foldl_create_preserves _ _ name bk h

/-- C8 (witness): creating the partitions for account `"alice"` twice from a
fresh store leaves the state of the first call unchanged, and a state where
only the first of the two single-bucket transactions committed keeps that
first partition intact when the remaining transaction later commits. -/
theorem storage_c8_witness :
    Store.CreateAccountBuckets
        (Store.CreateAccountBuckets emptyStore [strBytes "alice"]) [strBytes "alice"] =
      Store.CreateAccountBuckets emptyStore [strBytes "alice"] ∧
    lookupBucket (strBytes "alice" ++ ingressSuffix)
        (cabPartial [strBytes "alice"] 2 emptyStore) = some ⟨[], 0⟩ :=
  ⟨(storage_c8_create_account_buckets_idempotent [strBytes "alice"] emptyStore).1,
    (storage_c8_create_account_buckets_idempotent [strBytes "alice"] emptyStore).2.2
      1 2 (strBytes "alice" ++ ingressSuffix) ⟨[], 0⟩ (by decide) (by rfl)⟩

/-- C5: for every sequence of egress calls on the same store starting from a
fresh database — `PutEgressBlock` calls interleaved arbitrarily with
`Remove` calls — the assigned block IDs decode to strictly increasing 64-bit
big-endian integers and are pairwise distinct, so an ID is never reassigned
even after the record holding it is removed.  (The length bound rules out
`uint64` sequence wrap-around, which is unreachable in practice.) -/
theorem storage_c5_ids_strictly_increasing (ops : List EOp) (s2 : Store) (ids : List Bytes)
    (h : execE emptyStore ops = some (s2, ids)) (hlen : ops.length < 2 ^ 64) :
    ids.Pairwise (fun a b => beUint a < beUint b) ∧ ids.Nodup := by
  have hinv : EgressInv emptyStore := fun bk hbk => by
    simp [lookupBucket, emptyStore] at hbk
  obtain ⟨hids, -, -⟩ := execE_spec ops emptyStore s2 ids h hinv (by
    show 0 + ops.length < 2 ^ 64
    omega)
  have hple : countPuts ops ≤ ops.length := countPuts_le ops
  have h264 : (256 : ℕ) ^ 8 = 2 ^ 64 := by norm_num
  have hpw : ids.Pairwise (fun a b => beUint a < beUint b) := by
    rw [hids, List.pairwise_map]
    apply (List.pairwise_lt_range (countPuts ops)).imp_of_mem
    intro a b ha hb hab
    rw [List.mem_range] at ha hb
    show beUint (beBytes 8 (egressSeq emptyStore + a + 1)) <
      beUint (beBytes 8 (egressSeq emptyStore + b + 1))
    have hsq : egressSeq emptyStore = 0 := rfl
    rw [hsq, beUint_beBytes _ _ (by rw [h264]; omega),
      beUint_beBytes _ _ (by rw [h264]; omega)]
    omega
  exact ⟨hpw, hpw.imp fun hab heq => absurd (heq ▸ hab) (lt_irrefl _)⟩

/-- C5 (witness): the trace put, remove(id 1), put on a fresh store assigns
IDs 1 and 2, strictly increasing and distinct. -/
theorem storage_c5_witness :
    [beBytes 8 1, beBytes 8 2].Pairwise (fun a b => beUint a < beUint b) ∧
    [beBytes 8 1, beBytes 8 2].Nodup := by
  obtain ⟨s2, hs2⟩ : ∃ s2,
      execE emptyStore [EOp.put sampleRecord, EOp.rem (beBytes 8 1), EOp.put sampleRecord]
        = some (s2, [beBytes 8 1, beBytes 8 2]) := ⟨_, by rfl⟩
  exact storage_c5_ids_strictly_increasing _ _ _ hs2 (by norm_num)

/-- C6 (amended): when the egress partition exists, `GetKeys` returns all
stored block IDs in key order, and that order is a suborder of the order in
which `PutEgressBlock` assigned them (big-endian fixed-width keys sort like
their sequence numbers); when the partition exists but holds no records the
result is an empty sequence, not an error; when the partition was never
created `GetKeys` returns an error. -/
theorem storage_c6_keys_in_insertion_order (ops : List EOp) (s2 : Store) (ids : List Bytes)
    (h : execE emptyStore ops = some (s2, ids)) (hlen : ops.length < 2 ^ 64) :
    (∀ bk, lookupBucket EgressBucketName s2 = some bk →
      Store.GetKeys s2 = Res.ok (bk.data.map Prod.fst) ∧
      (bk.data.map Prod.fst).Sublist ids ∧
      (bk.data = [] → Store.GetKeys s2 = Res.ok [])) ∧
    (lookupBucket EgressBucketName s2 = none →
      Store.GetKeys s2 = Res.err "GetKeys failed to get the bucket") := by
  have hinv : EgressInv emptyStore := fun bk hbk => by
    simp [lookupBucket, emptyStore] at hbk
  obtain ⟨hids, hinv2, hseq2⟩ := execE_spec ops emptyStore s2 ids h hinv (by
    show 0 + ops.length < 2 ^ 64
    omega)
  have hsq : egressSeq emptyStore = 0 := rfl
  rw [hsq] at hseq2
  constructor
  · intro bk hbk
    refine ⟨by simp [Store.GetKeys, hbk], ?_, fun hd => by simp [Store.GetKeys, hbk, hd]⟩
    obtain ⟨idxs, hpw, hbd, hkeys⟩ := hinv2 bk hbk
    have hbkseq : bk.seq = countPuts ops := by
      have : egressSeq s2 = bk.seq := by rw [egressSeq, hbk]
      omega
    have hsub : idxs.Sublist (List.range' 1 (countPuts ops)) := by
      have hb2 : ∀ x ∈ idxs, 1 ≤ x ∧ x < countPuts ops + 1 := by
        intro x hx
        have := hbd x hx
        omega
      have := pairwise_lt_sublist_range' idxs 1 (countPuts ops + 1) hpw hb2
      simpa using this
    have hmap := hsub.map (beBytes 8)
    have hrange : ((List.range (countPuts ops)).map
        (fun k => beBytes 8 (egressSeq emptyStore + k + 1)))
        = (List.range' 1 (countPuts ops)).map (beBytes 8) := by
      rw [List.range'_eq_map_range, List.map_map]
      apply List.map_congr_left
      intro k hk
      simp only [Function.comp_apply]
      rw [hsq]
      congr 1
      omega
    rw [hkeys, hids, hrange]
    exact hmap
  · intro hnone
    simp [Store.GetKeys, hnone]

/-- C6 (witness): the trace put, remove(id 1) leaves an existing but empty
egress partition, on which `GetKeys` returns the empty sequence without
error. -/
theorem storage_c6_witness :
    Store.GetKeys [(EgressBucketName, (⟨[], 1⟩ : Bucket))] = Res.ok [] := by
  have hs2 : execE emptyStore [EOp.put sampleRecord, EOp.rem (beBytes 8 1)]
      = some ([(EgressBucketName, (⟨[], 1⟩ : Bucket))], [beBytes 8 1]) := by rfl
  exact ((storage_c6_keys_in_insertion_order _ _ _ hs2 (by norm_num)).1
    ⟨[], 1⟩ (by rfl)).2.2 rfl

/-- C7: after creating the account's partitions and storing any sequence of
fragments via `PutIngressBlock`, `GetIngressBlocks(account, mid)` succeeds
and returns exactly those stored fragments whose embedded message-grouping
identifier equals `mid` — no others — paired (up to enumeration order) with
the storage keys of exactly those entries.  (Fragments are well-formed:
their `MessageID` has the declared width; the length bound keeps the
decimal keys in `int` range.) -/
theorem storage_c7_get_ingress_exact (acct : Bytes) (blocks : List Block) (mid : Bytes)
    (hwf : ∀ b ∈ blocks, b.MessageID.length = MessageIDLength)
    (hlen : blocks.length < 2 ^ 63) :
    ∃ bk2 r,
      execI acct (Store.CreateAccountBuckets emptyStore [acct]) blocks =
        Res.ok (setBucket (acct ++ ingressSuffix) bk2
          (Store.CreateAccountBuckets emptyStore [acct])) ∧
      Store.GetIngressBlocks
          (setBucket (acct ++ ingressSuffix) bk2
            (Store.CreateAccountBuckets emptyStore [acct])) acct mid = Res.ok r ∧
      (r.1.zip r.2).Perm
        ((blocks.zip ((List.range' 1 blocks.length).map itoaGo)).filter
          (fun p => p.1.MessageID = mid)) := by
  have hne : ¬ (acct ++ pop3Suffix = acct ++ ingressSuffix) := by
    intro h
    have hsuf := List.append_cancel_left h
    exact absurd hsuf (by decide)
  have h0 : lookupBucket (acct ++ ingressSuffix)
      (Store.CreateAccountBuckets emptyStore [acct]) = some ⟨[], 0⟩ := by
    simp [Store.CreateAccountBuckets, cabTxs, createBucketIfNotExists, lookupBucket,
      emptyStore, hne]
  obtain ⟨bk2, hexec, hseq, hperm⟩ :=
    execI_spec blocks (Store.CreateAccountBuckets emptyStore [acct]) acct ⟨[], 0⟩ h0
      (by intro k hk; simp at hk) (by show 0 + blocks.length < 2 ^ 63; omega)
  rw [List.nil_append] at hperm
  have hdecode : ∀ kv ∈ bk2.data, ∃ b : Block, Block.FromBytes kv.2 = Except.ok b := by
    intro kv hkv
    have hz : kv ∈ ((List.range' 1 blocks.length).map itoaGo).zip
        (blocks.map Block.ToBytes) := hperm.mem_iff.mp hkv
    obtain ⟨k2, v2⟩ := kv
    have hv2 : v2 ∈ blocks.map Block.ToBytes := (List.of_mem_zip hz).2
    obtain ⟨b, hb, hbe⟩ := List.mem_map.mp hv2
    exact ⟨b, by rw [← hbe]; exact block_roundtrip b (hwf b hb)⟩
  obtain ⟨r, hscan, hzip⟩ := scanIngress_spec mid bk2.data hdecode
  refine ⟨bk2, r, hexec, ?_, ?_⟩
  · simp [Store.GetIngressBlocks, lookup_setBucket_self, hscan]
  · rw [hzip]
    have hfm := hperm.filterMap (fun kv =>
      match Block.FromBytes kv.2 with
      | Except.ok b => if b.MessageID = mid then some (b, kv.1) else none
      | Except.error _ => none)
    rw [filterMap_zipped mid blocks _ (by simp) hwf] at hfm
    exact hfm

/-- C7 (witness): for account `"bob"` with two stored fragments carrying
different grouping identifiers, querying the first identifier returns
exactly that fragment with its key. -/
theorem storage_c7_witness :
    ∃ bk2 r,
      execI (strBytes "bob") (Store.CreateAccountBuckets emptyStore [strBytes "bob"])
          [⟨List.replicate MessageIDLength 7, [1]⟩,
            ⟨List.replicate MessageIDLength 9, [2]⟩] =
        Res.ok (setBucket (strBytes "bob" ++ ingressSuffix) bk2
          (Store.CreateAccountBuckets emptyStore [strBytes "bob"])) ∧
      Store.GetIngressBlocks
          (setBucket (strBytes "bob" ++ ingressSuffix) bk2
            (Store.CreateAccountBuckets emptyStore [strBytes "bob"]))
          (strBytes "bob") (List.replicate MessageIDLength 7) = Res.ok r ∧
      (r.1.zip r.2).Perm
        (([⟨List.replicate MessageIDLength 7, [1]⟩,
            (⟨List.replicate MessageIDLength 9, [2]⟩ : Block)].zip
          ((List.range' 1 2).map itoaGo)).filter
            (fun p => p.1.MessageID = List.replicate MessageIDLength 7)) :=
  storage_c7_get_ingress_exact (strBytes "bob") _ _ (by decide) (by norm_num)

end ClientStorage
